import Mathlib

/-!
Verification of the data pipeline of the FlightsDashboard repository
(src/dashboard/db.py): CSV loading, date normalization, date filtering,
and CSV export as a base64 data-URI download link.

The shallow embedding models a pandas DataFrame as an ordered table of
text rows (header plus data rows, values kept as strings), exactly as the
specification's data model describes the tables this program manipulates.
The operations are translated from the source:
  load_data        (db.py:65-66, pd.read_csv with header row)
  load_flights_data / load_covid_data date normalization
                   (db.py:69-78, pd.to_datetime(...).dt.strftime of one column)
  the date filter  (db.py:213-216, boolean mask for string equality)
  download_csv     (db.py:86-90, to_csv(index=False), base64, data URI link)
  the date slider  (db.py:185-191, fixed minimum, column maximum).
-/

/-- Table: ordered rows of named-column values, as loaded from a CSV file.
Models a pandas DataFrame at the level of the spec's data model: a header
(column names in order) and data rows of text values. -/
structure Table where
  header : List String
  rows : List (List String)
deriving Repr, DecidableEq

/-- Error kinds of the pipeline, from the spec's error-handling design:
missing source file, header/row field-count mismatch (or unparseable CSV),
unparseable date value, and a filter/normalize naming an absent column. -/
inductive DbError where
  | notFound
  | malformedInput
  | dateParse
  | columnNotFound
deriving Repr, DecidableEq

/-! ## CSV serialization (models pandas DataFrame.to_csv(index=False)) -/

/-- Predicate for fields that must be quoted under minimal CSV quoting:
the field contains a delimiter, a quote, or a line-terminator character. -/
def needsQuote (s : String) : Bool :=
  s.data.any (fun c => c = ',' || c = '"' || c = '\n' || c = '\r')

/-- Double every quote character, as standard CSV quoting does inside a
quoted field. -/
def escQuotes : List Char → List Char
  | [] => []
  | c :: cs => if c = '"' then '"' :: '"' :: escQuotes cs else c :: escQuotes cs

/-- Render one field: quoted with doubled inner quotes when it contains a
special character, verbatim otherwise. -/
def escField (s : String) : List Char :=
  if needsQuote s then '"' :: (escQuotes s.data ++ ['"']) else s.data

/-- Render one record: fields comma-joined in column order. -/
def serializeRecord : List String → List Char
  | [] => []
  | [f] => escField f
  | f :: fs => escField f ++ ',' :: serializeRecord fs

/-- Render one CSV line: a record followed by the line terminator. -/
def csvLine (r : List String) : List Char :=
  serializeRecord r ++ ['\n']

/-- Character stream of the CSV serialization of a table: header line
first, then the data rows in order. Models data.to_csv(index=False) in
download_csv (db.py:87): no index column is emitted. -/
def toCsvChars (t : Table) : List Char :=
  csvLine t.header ++ (t.rows.map csvLine).flatten

/-- CSV serialization of a table as a string. -/
def to_csv (t : Table) : String :=
  String.mk (toCsvChars t)

/-! ## CSV parsing (models pandas read_csv, header=0) -/

/-- Read an unquoted field: the longest run of characters up to the next
delimiter or line terminator. Returns the field and the unconsumed rest. -/
def parseUnquoted : List Char → List Char × List Char
  | [] => ([], [])
  | c :: cs =>
    if c = ',' ∨ c = '\n' then ([], c :: cs)
    else
      let p := parseUnquoted cs
      (c :: p.1, p.2)

/-- Read the body of a quoted field, after its opening quote. A doubled
quote stands for one literal quote; a lone quote closes the field. Fails
on an unterminated quoted field. -/
def parseQuoted : List Char → Option (List Char × List Char)
  | [] => none
  | c :: cs =>
    if c = '"' then
      match cs with
      | [] => some ([], [])
      | c2 :: cs2 =>
        if c2 = '"' then
          match parseQuoted cs2 with
          | some p => some ('"' :: p.1, p.2)
          | none => none
        else some ([], cs)
    else
      match parseQuoted cs with
      | some p => some (c :: p.1, p.2)
      | none => none

/-- Read one field, quoted or not. -/
def parseField (cs : List Char) : Option (List Char × List Char) :=
  match cs with
  | [] => some ([], [])
  | c :: cs' => if c = '"' then parseQuoted cs' else some (parseUnquoted cs)

/-- Read one record (fuelled on the number of fields): fields separated by
commas, ended by a line terminator or the end of input. -/
def parseRecordF : Nat → List Char → Option (List String × List Char)
  | 0, _ => none
  | fuel + 1, cs =>
    match parseField cs with
    | none => none
    | some (f, r) =>
      match r with
      | [] => some ([String.mk f], [])
      | c :: r' =>
        if c = ',' then
          match parseRecordF fuel r' with
          | some (fs, rest) => some (String.mk f :: fs, rest)
          | none => none
        else if c = '\n' then some ([String.mk f], r')
        else none

/-- Read one record; a record never has more fields than characters plus
one, so the character count bounds the fuel. -/
def parseRecord (cs : List Char) : Option (List String × List Char) :=
  parseRecordF (cs.length + 1) cs

/-- Read all records of the stream (fuelled on the number of records). -/
def parseRecordsF : Nat → List Char → Option (List (List String))
  | 0, _ => none
  | _ + 1, [] => some []
  | fuel + 1, cs =>
    match parseRecord cs with
    | none => none
    | some (row, rest) =>
      match parseRecordsF fuel rest with
      | some rows => some (row :: rows)
      | none => none

/-- Read all records of a CSV character stream; every record consumes at
least one character, so the character count bounds the fuel. -/
def parseRecords (cs : List Char) : Option (List (List String)) :=
  parseRecordsF (cs.length + 1) cs

/-- Parse CSV content into a Table: the first record is the header, the
remaining records are the rows. Fails when the content is not CSV, has no
header line, or some row's field count differs from the header's. -/
def parseTable (content : String) : Except DbError Table :=
  match parseRecords content.data with
  | none => .error .malformedInput
  | some [] => .error .malformedInput
  | some (header :: rows) =>
    if rows.all (fun r => r.length = header.length) then .ok ⟨header, rows⟩
    else .error .malformedInput

/-- Loader, translated from load_data (db.py:65-66). The file system is an
explicit map from paths to contents; pd.read_csv raises the not-found
error when the path does not exist, and parses the content with the first
line as header otherwise. -/
def load_data (fs : String → Option String) (path : String) : Except DbError Table :=
  match fs path with
  | none => .error .notFound
  | some content => parseTable content

/-! ## UTF-8 and base64 (model csv.encode() and base64.b64encode in
download_csv, db.py:88) -/

/-- UTF-8 encoding of one character as its byte sequence (bytes as Nat). -/
def utf8EncodeChar (c : Char) : List Nat :=
  let v := c.toNat
  if v < 128 then [v]
  else if v < 2048 then [192 + v / 64, 128 + v % 64]
  else if v < 65536 then [224 + v / 4096, 128 + v / 64 % 64, 128 + v % 64]
  else [240 + v / 262144, 128 + v / 4096 % 64, 128 + v / 64 % 64, 128 + v % 64]

/-- UTF-8 encoding of a character stream. -/
def utf8Encode (cs : List Char) : List Nat :=
  (cs.map utf8EncodeChar).flatten

/-- UTF-8 decoding of one leading character: returns the character and
the unconsumed rest; fails on a malformed sequence. -/
def utf8DecodeChar1 (bs0 : List Nat) : Option (Char × List Nat) :=
  match bs0 with
  | [] => none
  | b :: bs =>
    if b < 128 then some (Char.ofNat b, bs)
    else if b < 192 then none
    else if b < 224 then
      match bs with
      | b2 :: bs2 =>
        if 128 ≤ b2 ∧ b2 < 192 then
          some (Char.ofNat ((b - 192) * 64 + (b2 - 128)), bs2)
        else none
      | [] => none
    else if b < 240 then
      match bs with
      | b2 :: b3 :: bs3 =>
        if (128 ≤ b2 ∧ b2 < 192) ∧ (128 ≤ b3 ∧ b3 < 192) then
          some (Char.ofNat ((b - 224) * 4096 + (b2 - 128) * 64 + (b3 - 128)), bs3)
        else none
      | _ => none
    else if b < 248 then
      match bs with
      | b2 :: b3 :: b4 :: bs4 =>
        if (128 ≤ b2 ∧ b2 < 192) ∧ (128 ≤ b3 ∧ b3 < 192) ∧ (128 ≤ b4 ∧ b4 < 192) then
          some (Char.ofNat
            ((b - 240) * 262144 + (b2 - 128) * 4096 + (b3 - 128) * 64 + (b4 - 128)), bs4)
        else none
      | _ => none
    else none

/-- UTF-8 decoding of a byte stream (fuelled on the character count);
fails on a malformed sequence. -/
def utf8DecodeF : Nat → List Nat → Option (List Char)
  | 0, _ => none
  | _ + 1, [] => some []
  | fuel + 1, b :: bs =>
    match utf8DecodeChar1 (b :: bs) with
    | some (c, rest) =>
      match utf8DecodeF fuel rest with
      | some cs => some (c :: cs)
      | none => none
    | none => none

/-- UTF-8 decoding of a byte stream; every character consumes at least
one byte, so the byte count bounds the fuel. -/
def utf8Decode (bs : List Nat) : Option (List Char) :=
  utf8DecodeF (bs.length + 1) bs

/-- Base64 alphabet in index order. -/
def b64Alphabet : List Char :=
  "ABCDEFGHIJKLMNOPQRSTUVWXYZabcdefghijklmnopqrstuvwxyz0123456789+/".data

/-- Base64 digit for a sextet value. -/
def b64Char (n : Nat) : Char :=
  b64Alphabet.getD n 'A'

/-- Index of a character in the base64 alphabet, when it is a digit. -/
def b64CharVal (c : Char) : Option Nat :=
  b64Alphabet.findIdx? (fun a => a = c)

/-- Base64 encoding of a byte stream, with '=' padding. -/
def b64encode : List Nat → List Char
  | [] => []
  | [a] => [b64Char (a / 4), b64Char (a % 4 * 16), '=', '=']
  | [a, b] => [b64Char (a / 4), b64Char (a % 4 * 16 + b / 16), b64Char (b % 16 * 4), '=']
  | a :: b :: c :: rest =>
    b64Char (a / 4) :: b64Char (a % 4 * 16 + b / 16) :: b64Char (b % 16 * 4 + c / 64) ::
      b64Char (c % 64) :: b64encode rest

/-- Base64 decoding; fails on anything b64encode cannot produce. -/
def b64decode : List Char → Option (List Nat)
  | [] => some []
  | c1 :: c2 :: c3 :: c4 :: rest =>
    match b64CharVal c1, b64CharVal c2 with
    | some v1, some v2 =>
      if c3 = '=' then
        if c4 = '=' ∧ rest = [] ∧ v2 % 16 = 0 then some [v1 * 4 + v2 / 16] else none
      else
        match b64CharVal c3 with
        | some v3 =>
          if c4 = '=' then
            if rest = [] ∧ v3 % 4 = 0 then some [v1 * 4 + v2 / 16, v2 % 16 * 16 + v3 / 4]
            else none
          else
            match b64CharVal c4 with
            | some v4 =>
              match b64decode rest with
              | some bs =>
                some ((v1 * 4 + v2 / 16) :: (v2 % 16 * 16 + v3 / 4) :: (v3 % 4 * 64 + v4) :: bs)
              | none => none
            | none => none
        | none => none
    | _, _ => none
  | _ => none

/-! ## Download link (translated from download_csv, db.py:86-90) -/

/-- Base64 payload embedded in the data URI: the CSV serialization of the
table, UTF-8 encoded then base64 encoded (csv.encode() then
base64.b64encode(...).decode()). -/
def download_payload (t : Table) : List Char :=
  b64encode (utf8Encode (to_csv t).data)

/-- Download hyperlink produced by download_csv (db.py:89): a data URI
whose media type segment is file/csv as written in the source, with the
fixed suggested filename flights.csv. -/
def download_link (t : Table) : String :=
  "<a href=\"data:file/csv;base64," ++ String.mk (download_payload t) ++
    "\" download=\"flights.csv\">Download CSV</a>"

/-- Decoding of a download payload back to text: base64 decode, then
UTF-8 decode. -/
def decode_payload (p : List Char) : Option String :=
  match b64decode p with
  | some bs =>
    match utf8Decode bs with
    | some cs => some (String.mk cs)
    | none => none
  | none => none

/-- Media type segment of an anchor-wrapped data URI: the characters
between data: and the first ; of the href. -/
def extractMime (s : String) : Option String :=
  if "<a href=\"data:".data.isPrefixOf s.data then
    some (String.mk ((s.data.drop "<a href=\"data:".data.length).takeWhile (fun c => c ≠ ';')))
  else none

/-! ## Calendar dates (model pd.to_datetime followed by
.dt.strftime of the date pattern, db.py:71 and db.py:77) -/

/-- Calendar date. -/
structure Date where
  year : Nat
  month : Nat
  day : Nat
deriving Repr, DecidableEq

/-- Leap-year test of the Gregorian calendar. -/
def isLeap (y : Nat) : Bool :=
  (y % 4 = 0 && y % 100 ≠ 0) || y % 400 = 0

/-- Number of days of a month. -/
def daysInMonth (y m : Nat) : Nat :=
  if m = 2 then (if isLeap y then 29 else 28)
  else if m = 4 ∨ m = 6 ∨ m = 9 ∨ m = 11 then 30
  else 31

/-- Validity of a calendar date representable with a four-digit year. -/
def validDate (d : Date) : Bool :=
  d.year ≤ 9999 && 1 ≤ d.month && d.month ≤ 12 && 1 ≤ d.day && d.day ≤ daysInMonth d.year d.month

/-- Value of a decimal digit character. -/
def digitVal (c : Char) : Option Nat :=
  if 48 ≤ c.toNat ∧ c.toNat ≤ 57 then some (c.toNat - 48) else none

/-- Two decimal digits, zero padded. -/
def pad2 (n : Nat) : List Char :=
  [Char.ofNat (48 + n / 10 % 10), Char.ofNat (48 + n % 10)]

/-- Four decimal digits, zero padded. -/
def pad4 (n : Nat) : List Char :=
  [Char.ofNat (48 + n / 1000 % 10), Char.ofNat (48 + n / 100 % 10),
   Char.ofNat (48 + n / 10 % 10), Char.ofNat (48 + n % 10)]

/-- Canonical rendering of a date, the strftime date pattern of
db.py:71/77: four-digit year, dash, two-digit month, dash, two-digit day. -/
def dateFormat (d : Date) : String :=
  String.mk (pad4 d.year ++ '-' :: (pad2 d.month ++ '-' :: pad2 d.day))

/-- Three-letter month name to month number (the slash-separated source
format of the spec's normalizer contract, e.g. 01/Jan/2020). -/
def monthOfName (s : String) : Option Nat :=
  match s.data with
  | ['J', 'a', 'n'] => some 1
  | ['F', 'e', 'b'] => some 2
  | ['M', 'a', 'r'] => some 3
  | ['A', 'p', 'r'] => some 4
  | ['M', 'a', 'y'] => some 5
  | ['J', 'u', 'n'] => some 6
  | ['J', 'u', 'l'] => some 7
  | ['A', 'u', 'g'] => some 8
  | ['S', 'e', 'p'] => some 9
  | ['O', 'c', 't'] => some 10
  | ['N', 'o', 'v'] => some 11
  | ['D', 'e', 'c'] => some 12
  | _ => none

/-- Date parser of the normalizer, modelling pd.to_datetime on the
formats this pipeline meets: the canonical dashed form YYYY-MM-DD, and
the slash-separated DD/Mon/YYYY form with a named month. Yields the
parsed date only when it is a valid calendar date. -/
def dateParse (s : String) : Option Date :=
  match s.data with
  | [y1, y2, y3, y4, '-', m1, m2, '-', d1, d2] =>
    match digitVal y1, digitVal y2, digitVal y3, digitVal y4,
          digitVal m1, digitVal m2, digitVal d1, digitVal d2 with
    | some a, some b, some c, some d, some e, some f, some g, some h =>
      if validDate ⟨a * 1000 + b * 100 + c * 10 + d, e * 10 + f, g * 10 + h⟩ then
        some ⟨a * 1000 + b * 100 + c * 10 + d, e * 10 + f, g * 10 + h⟩
      else none
    | _, _, _, _, _, _, _, _ => none
  | [d1, d2, '/', n1, n2, n3, '/', y1, y2, y3, y4] =>
    match digitVal d1, digitVal d2, monthOfName (String.mk [n1, n2, n3]),
          digitVal y1, digitVal y2, digitVal y3, digitVal y4 with
    | some g, some h, some m, some a, some b, some c, some d =>
      if validDate ⟨a * 1000 + b * 100 + c * 10 + d, m, g * 10 + h⟩ then
        some ⟨a * 1000 + b * 100 + c * 10 + d, m, g * 10 + h⟩
      else none
    | _, _, _, _, _, _, _ => none
  | _ => none

/-! ## Date normalization (translated from load_flights_data and
load_covid_data, db.py:69-78: one designated column is parsed as dates
and rewritten in the canonical form; other columns are untouched) -/

/-- Index of a named column in the header. -/
def colIndex (t : Table) (c : String) : Option Nat :=
  t.header.findIdx? (fun h => h = c)

/-- Normalize the value at column index i of one row. -/
def normRow (i : Nat) (r : List String) : Option (List String) :=
  match dateParse (r.getD i "") with
  | some d => some (r.set i (dateFormat d))
  | none => none

/-- Normalize column index i of every row; fails when any value cannot be
parsed as a date. -/
def normRows (i : Nat) : List (List String) → Option (List (List String))
  | [] => some []
  | r :: rs =>
    match normRow i r, normRows i rs with
    | some r', some rs' => some (r' :: rs')
    | _, _ => none

/-- Date normalizer of the pipeline: parse every value of the named
column as a calendar date and rewrite it canonically, as the assignment
df[col] = pd.to_datetime(df[col]).dt.strftime of the date pattern does.
Fails when the column is absent or some value is unparseable. -/
def normalize_date (t : Table) (c : String) : Except DbError Table :=
  match colIndex t c with
  | none => .error .columnNotFound
  | some i =>
    match normRows i t.rows with
    | some rs => .ok ⟨t.header, rs⟩
    | none => .error .dateParse

/-! ## Date filter (translated from the boolean-mask filters of
db.py:213-216) -/

/-- Date filter: keep exactly the rows whose value in the named column
equals the target string, preserving their order, as the mask
df[df[col] == date.isoformat()] does. Fails when the column is absent. -/
def filter_by_date (t : Table) (c : String) (d : String) : Except DbError Table :=
  match colIndex t c with
  | none => .error .columnNotFound
  | some i => .ok ⟨t.header, t.rows.filter (fun r => r.getD i "" = d)⟩

/-! ## Date slider (translated from db.py:185-191) -/

/-- Lexicographic strict order on character streams; on canonical
YYYY-MM-DD strings it agrees with chronological order, which is the order
the slider's datetime.date comparisons use. -/
def lexLt : List Char → List Char → Bool
  | [], [] => false
  | [], _ :: _ => true
  | _ :: _, [] => false
  | a :: as, b :: bs =>
    if a.toNat < b.toNat then true
    else if a = b then lexLt as bs
    else false

/-- String comparison used by the slider model. -/
def strLe (a b : String) : Bool :=
  !(lexLt b.data a.data)

/-- Greatest element of a list of strings, modelling Series.max() of
db.py:190. -/
def listMax : List String → Option String
  | [] => none
  | x :: xs =>
    match listMax xs with
    | some m => some (if strLe x m then m else x)
    | none => some x

/-- All values of a named column, in row order. -/
def colValues (t : Table) (c : String) : Option (List String) :=
  match colIndex t c with
  | some i => some (t.rows.map (fun r => r.getD i ""))
  | none => none

/-- Fixed lower bound of the date slider, date.fromisoformat of the
literal written at db.py:189. -/
def slider_min : String := "2020-01-01"

/-- Upper bound of the date slider: the maximum of the firstseen column,
date.fromisoformat(flightDF["firstseen"].max()) at db.py:190. -/
def slider_max (t : Table) : Option String :=
  match colValues t "firstseen" with
  | some vs => listMax vs
  | none => none

/-- Range enforcement of the slider control (db.py:185-191): a selected
date is accepted exactly when it lies between min_value and max_value. -/
def slider_allows (t : Table) (d : String) : Bool :=
  match slider_max t with
  | some m => strLe slider_min d && strLe d m
  | none => false

/-! ## Lemmas: the CSV parser inverts the CSV serializer -/

/-- Quoted-field bodies written by escQuotes are read back verbatim, for
any continuation that does not begin with a quote. -/
theorem parseQuoted_esc (cs rest : List Char) (h : rest.head? ≠ some '"') :
    parseQuoted (escQuotes cs ++ '"' :: rest) = some (cs, rest) := by
  induction cs with
  | nil =>
    cases rest with
    | nil => simp [escQuotes, parseQuoted]
    | cons c2 cs2 =>
      have hc2 : c2 ≠ '"' := by
        intro he
        exact h (by simp [he])
      simp [escQuotes, parseQuoted, hc2]
  | cons c cs ih =>
    by_cases hc : c = '"'
    · subst hc
      have h1 : escQuotes ('"' :: cs) = '"' :: '"' :: escQuotes cs := by
        simp [escQuotes]
      rw [h1, List.cons_append, List.cons_append, parseQuoted.eq_def]
      simp only [if_true]
      rw [ih]
    · have h1 : escQuotes (c :: cs) = c :: escQuotes cs := by
        simp [escQuotes, hc]
      rw [h1, List.cons_append, parseQuoted.eq_def]
      simp only []
      rw [if_neg hc, ih]

/-- Unquoted fields are read back verbatim up to the next delimiter or
line terminator. -/
theorem parseUnquoted_exact (f rest : List Char)
    (hf : ∀ c ∈ f, ¬(c = ',' ∨ c = '\n'))
    (hrest : rest = [] ∨ rest.head? = some ',' ∨ rest.head? = some '\n') :
    parseUnquoted (f ++ rest) = (f, rest) := by
  induction f with
  | nil =>
    rcases hrest with h | h | h
    · simp [h, parseUnquoted]
    · cases rest with
      | nil => simp at h
      | cons c cs =>
        simp at h
        subst h
        simp [parseUnquoted]
    · cases rest with
      | nil => simp at h
      | cons c cs =>
        simp at h
        subst h
        simp [parseUnquoted]
  | cons c f ih =>
    have hc := hf c (by simp)
    have ih' := ih (fun x hx => hf x (by simp [hx]))
    simp only [List.cons_append, parseUnquoted, if_neg hc, List.append_eq, ih']

/-- Reading a field whose stream does not open with a quote is reading an
unquoted field. -/
theorem parseField_unquoted (cs : List Char) (h : cs.head? ≠ some '"') :
    parseField cs = some (parseUnquoted cs) := by
  cases cs with
  | nil => rfl
  | cons c cl =>
    have hc : c ≠ '"' := by
      intro he
      exact h (by simp [he])
    simp [parseField, hc]

/-- Escaped fields are read back verbatim, for any continuation opening
with a delimiter or line terminator (or ending the stream). -/
theorem parseField_esc (s : String) (rest : List Char)
    (hrest : rest = [] ∨ rest.head? = some ',' ∨ rest.head? = some '\n') :
    parseField (escField s ++ rest) = some (s.data, rest) := by
  by_cases hq : needsQuote s
  · have hne : rest.head? ≠ some '"' := by
      rcases hrest with h | h | h <;> simp [h]
    have hsh : escField s ++ rest = '"' :: (escQuotes s.data ++ '"' :: rest) := by
      rw [escField, if_pos hq]
      simp
    rw [hsh]
    have hstep : parseField ('"' :: (escQuotes s.data ++ '"' :: rest))
        = parseQuoted (escQuotes s.data ++ '"' :: rest) := by
      simp [parseField]
    rw [hstep]
    exact parseQuoted_esc s.data rest hne
  · have hfalse : needsQuote s = false := by
      exact Bool.not_eq_true _ ▸ eq_false_of_ne_true hq
    have hall : ∀ c ∈ s.data, ¬(c = ',' || c = '"' || c = '\n' || c = '\r') = true := by
      rw [needsQuote] at hfalse
      intro c hc
      have := List.any_eq_false.mp hfalse c hc
      simpa using this
    have hnc : ∀ c ∈ s.data, ¬(c = ',' ∨ c = '\n') := by
      intro c hc hor
      have := hall c hc
      rcases hor with h | h <;> simp [h] at this
    have hnq : ∀ c ∈ s.data, c ≠ '"' := by
      intro c hc he
      have := hall c hc
      simp [he] at this
    have hesc : escField s = s.data := by
      rw [escField, if_neg hq]
    rw [hesc]
    have hhd : (s.data ++ rest).head? ≠ some '"' := by
      cases hd : s.data with
      | nil =>
        rcases hrest with h | h | h <;> simp [h]
      | cons c cl =>
        have : c ≠ '"' := hnq c (by rw [hd]; simp)
        simp [this]
    rw [parseField_unquoted _ hhd, parseUnquoted_exact s.data rest hnc hrest]

/-- Records have no more fields than serialized characters plus one. -/
theorem serializeRecord_len (r : List String) :
    r.length ≤ (serializeRecord r).length + 1 := by
  induction r with
  | nil => simp
  | cons f fs ih =>
    cases fs with
    | nil => simp [serializeRecord]
    | cons g gs =>
      have h1 : serializeRecord (f :: g :: gs) = escField f ++ ',' :: serializeRecord (g :: gs) :=
        rfl
      rw [h1]
      simp only [List.length_cons, List.length_append] at ih ⊢
      omega

/-- Serialized records are read back verbatim, given fuel for their field
count. -/
theorem parseRecordF_serial (r : List String) (rest : List Char) (fuel : Nat)
    (hr : r ≠ []) (hfuel : r.length ≤ fuel) :
    parseRecordF fuel (serializeRecord r ++ '\n' :: rest) = some (r, rest) := by
  induction r generalizing fuel with
  | nil => exact absurd rfl hr
  | cons f fs ih =>
    obtain ⟨n, rfl⟩ : ∃ n, fuel = n + 1 := ⟨fuel - 1, by simp at hfuel; omega⟩
    cases fs with
    | nil =>
      have h1 : serializeRecord [f] = escField f := rfl
      rw [h1]
      simp only [parseRecordF]
      rw [parseField_esc f ('\n' :: rest) (by simp)]
      simp
    | cons g gs =>
      have h1 : serializeRecord (f :: g :: gs) = escField f ++ ',' :: serializeRecord (g :: gs) :=
        rfl
      have hsh : (escField f ++ ',' :: serializeRecord (g :: gs)) ++ '\n' :: rest
          = escField f ++ ',' :: (serializeRecord (g :: gs) ++ '\n' :: rest) := by
        simp
      rw [h1, hsh]
      simp only [parseRecordF]
      rw [parseField_esc f _ (by simp)]
      have hih := ih n (by simp) (by simp at hfuel ⊢; omega)
      simp only [if_true]
      rw [hih]

/-- Serialized records are read back verbatim. -/
theorem parseRecord_serial (r : List String) (rest : List Char) (hr : r ≠ []) :
    parseRecord (serializeRecord r ++ '\n' :: rest) = some (r, rest) := by
  apply parseRecordF_serial _ _ _ hr
  have h := serializeRecord_len r
  simp only [List.length_append, List.length_cons]
  omega

/-- Evaluation of the record-stream reader on a nonempty stream. -/
theorem parseRecordsF_cons (fuel : Nat) (c : Char) (cs : List Char) :
    parseRecordsF (fuel + 1) (c :: cs) =
      match parseRecord (c :: cs) with
      | none => none
      | some (row, rest) =>
        match parseRecordsF fuel rest with
        | some rows => some (row :: rows)
        | none => none := rfl

/-- Streams have at least as many characters as lines. -/
theorem linesLen (rows : List (List String)) :
    rows.length ≤ ((rows.map csvLine).flatten).length := by
  induction rows with
  | nil => simp
  | cons r rs ih =>
    simp only [List.map_cons, List.flatten_cons, csvLine, List.length_append, List.length_cons]
    omega

/-- Serialized line streams are read back verbatim, given fuel for their
line count. -/
theorem parseRecordsF_serial (rows : List (List String)) (fuel : Nat)
    (h : ∀ r ∈ rows, r ≠ []) (hfuel : rows.length < fuel) :
    parseRecordsF fuel ((rows.map csvLine).flatten) = some rows := by
  induction rows generalizing fuel with
  | nil =>
    obtain ⟨n, rfl⟩ : ∃ n, fuel = n + 1 := ⟨fuel - 1, by omega⟩
    rfl
  | cons r rs ih =>
    obtain ⟨n, rfl⟩ : ∃ n, fuel = n + 1 := ⟨fuel - 1, by omega⟩
    have hsh : ((r :: rs).map csvLine).flatten
        = serializeRecord r ++ '\n' :: ((rs.map csvLine).flatten) := by
      simp [csvLine]
    obtain ⟨c, cl, hcl⟩ :
        ∃ c cl, serializeRecord r ++ '\n' :: ((rs.map csvLine).flatten) = c :: cl := by
      cases hsr : serializeRecord r with
      | nil => exact ⟨'\n', (rs.map csvLine).flatten, by simp⟩
      | cons a al => exact ⟨a, al ++ '\n' :: ((rs.map csvLine).flatten), by simp⟩
    rw [hsh, hcl, parseRecordsF_cons, ← hcl]
    rw [parseRecord_serial r _ (h r (by simp))]
    simp only []
    rw [ih n (fun x hx => h x (by simp [hx])) (by simp at hfuel ⊢; omega)]

/-- Rows produced by the record reader are never empty. -/
theorem parseRecordF_ne_nil (fuel : Nat) (cs : List Char) (row : List String)
    (rest : List Char) (h : parseRecordF fuel cs = some (row, rest)) : row ≠ [] := by
  cases fuel with
  | zero => simp [parseRecordF] at h
  | succ n =>
    simp only [parseRecordF] at h
    split at h
    · exact absurd h (by simp)
    · split at h
      · simp only [Option.some.injEq, Prod.mk.injEq] at h
        rw [← h.1]
        simp
      · split at h
        · split at h
          · simp only [Option.some.injEq, Prod.mk.injEq] at h
            rw [← h.1]
            simp
          · exact absurd h (by simp)
        · split at h
          · simp only [Option.some.injEq, Prod.mk.injEq] at h
            rw [← h.1]
            simp
          · exact absurd h (by simp)

/-- Rows produced by the record-stream reader are never empty. -/
theorem parseRecordsF_ne_nil (fuel : Nat) (cs : List Char) (rows : List (List String))
    (h : parseRecordsF fuel cs = some rows) : ∀ r ∈ rows, r ≠ [] := by
  induction fuel generalizing cs rows with
  | zero => simp [parseRecordsF] at h
  | succ n ih =>
    cases cs with
    | nil =>
      simp only [parseRecordsF, Option.some.injEq] at h
      rw [← h]
      simp
    | cons c cl =>
      rw [parseRecordsF_cons] at h
      split at h
      · exact absurd h (by simp)
      · rename_i row rest heq
        split at h
        · rename_i rows' heq'
          simp only [Option.some.injEq] at h
          rw [← h]
          intro x hx
          rcases List.mem_cons.mp hx with hx1 | hx2
          · rw [hx1]
            exact parseRecordF_ne_nil _ _ _ _ heq
          · exact ih rest rows' heq' x hx2
        · exact absurd h (by simp)

/-- Parsing a table yields a nonempty header and rows of the header's
width. -/
theorem parseTable_wf (content : String) (t : Table) (h : parseTable content = .ok t) :
    t.header ≠ [] ∧ ∀ r ∈ t.rows, r.length = t.header.length := by
  rw [parseTable] at h
  split at h
  · exact absurd h (by simp)
  · exact absurd h (by simp)
  · rename_i header rows heq
    split at h
    · rename_i hall
      simp only [Except.ok.injEq] at h
      rw [← h]
      constructor
      · exact parseRecordsF_ne_nil _ _ _ heq header (by simp)
      · intro r hr
        have := List.all_eq_true.mp hall r hr
        simpa using this
    · exact absurd h (by simp)

/-- Round trip of the CSV pipeline: serializing a well-formed table and
re-parsing the text yields the table back. -/
theorem parseTable_to_csv (t : Table) (hh : t.header ≠ [])
    (hw : ∀ r ∈ t.rows, r.length = t.header.length) :
    parseTable (to_csv t) = .ok t := by
  have hdata : (to_csv t).data = ((t.header :: t.rows).map csvLine).flatten := by
    simp [to_csv, toCsvChars]
  have hne : ∀ r ∈ t.header :: t.rows, r ≠ [] := by
    intro r hr
    rcases List.mem_cons.mp hr with h1 | h2
    · rw [h1]; exact hh
    · intro hnil
      have := hw r h2
      rw [hnil] at this
      simp only [List.length_nil] at this
      exact hh (List.eq_nil_of_length_eq_zero this.symm)
  have hparse : parseRecords (to_csv t).data = some (t.header :: t.rows) := by
    rw [hdata, parseRecords]
    apply parseRecordsF_serial _ _ hne
    have := linesLen (t.header :: t.rows)
    omega
  rw [parseTable, hparse]
  simp only []
  rw [if_pos (List.all_eq_true.mpr (fun r hr => by simp [hw r hr]))]

/-! ## Lemmas: base64 of UTF-8 bytes decodes back to the same text -/

/-- Codepoints are below the Unicode bound. -/
theorem char_toNat_lt (c : Char) : c.toNat < 1114112 := by
  have h := c.valid
  rcases h with h | h
  · exact Nat.lt_trans h (by norm_num)
  · exact h.2

/-- UTF-8 bytes are bytes. -/
theorem utf8EncodeChar_lt (c : Char) : ∀ b ∈ utf8EncodeChar c, b < 256 := by
  have hval := char_toNat_lt c
  intro b hb
  by_cases h1 : c.toNat < 128
  · simp [utf8EncodeChar, h1] at hb
    omega
  · by_cases h2 : c.toNat < 2048
    · simp [utf8EncodeChar, h1, h2] at hb
      rcases hb with hb | hb <;> omega
    · by_cases h3 : c.toNat < 65536
      · simp [utf8EncodeChar, h1, h2, h3] at hb
        rcases hb with hb | hb | hb <;> omega
      · simp [utf8EncodeChar, h1, h2, h3] at hb
        rcases hb with hb | hb | hb | hb <;> omega

/-- UTF-8 bytes of a stream are bytes. -/
theorem utf8Encode_lt (cs : List Char) : ∀ b ∈ utf8Encode cs, b < 256 := by
  induction cs with
  | nil => simp [utf8Encode]
  | cons c cl ih =>
    intro b hb
    simp only [utf8Encode, List.map_cons, List.flatten_cons, List.mem_append] at hb
    rcases hb with hb | hb
    · exact utf8EncodeChar_lt c b hb
    · exact ih b hb


/-- Decoding inverts encoding for one leading character. -/
theorem utf8DecodeChar1_enc (c : Char) (bs : List Nat) :
    utf8DecodeChar1 (utf8EncodeChar c ++ bs) = some (c, bs) := by
  have hval := char_toNat_lt c
  by_cases h1 : c.toNat < 128
  · have he : utf8EncodeChar c = [c.toNat] := by
      simp [utf8EncodeChar, h1]
    rw [he, List.singleton_append, utf8DecodeChar1.eq_def]
    simp only []
    rw [if_pos h1, Char.ofNat_toNat]
  · by_cases h2 : c.toNat < 2048
    · have he : utf8EncodeChar c = [192 + c.toNat / 64, 128 + c.toNat % 64] := by
        simp [utf8EncodeChar, h1, h2]
      rw [he]
      show utf8DecodeChar1 ((192 + c.toNat / 64) :: ((128 + c.toNat % 64) :: bs)) = _
      rw [utf8DecodeChar1.eq_def]
      simp only []
      rw [if_neg (by omega), if_neg (by omega), if_pos (by omega), if_pos (by omega)]
      have harith : (192 + c.toNat / 64 - 192) * 64 + (128 + c.toNat % 64 - 128) = c.toNat := by
        omega
      rw [harith, Char.ofNat_toNat]
    · by_cases h3 : c.toNat < 65536
      · have he : utf8EncodeChar c
            = [224 + c.toNat / 4096, 128 + c.toNat / 64 % 64, 128 + c.toNat % 64] := by
          simp [utf8EncodeChar, h1, h2, h3]
        rw [he]
        show utf8DecodeChar1 ((224 + c.toNat / 4096) ::
          ((128 + c.toNat / 64 % 64) :: ((128 + c.toNat % 64) :: bs))) = _
        rw [utf8DecodeChar1.eq_def]
        simp only []
        rw [if_neg (by omega), if_neg (by omega), if_neg (by omega), if_pos (by omega),
          if_pos (by omega)]
        have harith : (224 + c.toNat / 4096 - 224) * 4096 + (128 + c.toNat / 64 % 64 - 128) * 64
            + (128 + c.toNat % 64 - 128) = c.toNat := by
          omega
        rw [harith, Char.ofNat_toNat]
      · have he : utf8EncodeChar c
            = [240 + c.toNat / 262144, 128 + c.toNat / 4096 % 64,
               128 + c.toNat / 64 % 64, 128 + c.toNat % 64] := by
          simp [utf8EncodeChar, h1, h2, h3]
        rw [he]
        show utf8DecodeChar1 ((240 + c.toNat / 262144) :: ((128 + c.toNat / 4096 % 64) ::
          ((128 + c.toNat / 64 % 64) :: ((128 + c.toNat % 64) :: bs)))) = _
        rw [utf8DecodeChar1.eq_def]
        simp only []
        rw [if_neg (by omega), if_neg (by omega), if_neg (by omega), if_neg (by omega),
          if_pos (by omega), if_pos (by omega)]
        have harith : (240 + c.toNat / 262144 - 240) * 262144
            + (128 + c.toNat / 4096 % 64 - 128) * 4096
            + (128 + c.toNat / 64 % 64 - 128) * 64 + (128 + c.toNat % 64 - 128) = c.toNat := by
          omega
        rw [harith, Char.ofNat_toNat]

/-- Encoded characters need at least one byte. -/
theorem utf8EncodeChar_ne_nil (c : Char) : utf8EncodeChar c ≠ [] := by
  rw [utf8EncodeChar]
  by_cases h1 : c.toNat < 128
  · simp [h1]
  · by_cases h2 : c.toNat < 2048
    · simp [h1, h2]
    · by_cases h3 : c.toNat < 65536
      · simp [h1, h2, h3]
      · simp [h1, h2, h3]

/-- Encoded streams have at least as many bytes as characters. -/
theorem utf8Encode_len (cs : List Char) : cs.length ≤ (utf8Encode cs).length := by
  induction cs with
  | nil => simp [utf8Encode]
  | cons c cl ih =>
    have h1 : utf8Encode (c :: cl) = utf8EncodeChar c ++ utf8Encode cl := by
      simp [utf8Encode]
    rw [h1]
    have h2 : 1 ≤ (utf8EncodeChar c).length :=
      List.length_pos.mpr (utf8EncodeChar_ne_nil c)
    simp only [List.length_append, List.length_cons]
    omega

/-- Decoding inverts encoding on whole streams, given fuel for the
character count. -/
theorem utf8DecodeF_enc (cs : List Char) (fuel : Nat) (hfuel : cs.length < fuel) :
    utf8DecodeF fuel (utf8Encode cs) = some cs := by
  induction cs generalizing fuel with
  | nil =>
    obtain ⟨n, rfl⟩ : ∃ n, fuel = n + 1 := ⟨fuel - 1, by omega⟩
    rfl
  | cons c cl ih =>
    obtain ⟨n, rfl⟩ : ∃ n, fuel = n + 1 := ⟨fuel - 1, by omega⟩
    have h1 : utf8Encode (c :: cl) = utf8EncodeChar c ++ utf8Encode cl := by
      simp [utf8Encode]
    obtain ⟨b, bl, hb⟩ : ∃ b bl, utf8EncodeChar c ++ utf8Encode cl = b :: bl := by
      cases hsr : utf8EncodeChar c with
      | nil => exact absurd hsr (utf8EncodeChar_ne_nil c)
      | cons a al => exact ⟨a, al ++ utf8Encode cl, by simp⟩
    have hev : utf8DecodeF (n + 1) (b :: bl) =
        match utf8DecodeChar1 (b :: bl) with
        | some (c, rest) =>
          match utf8DecodeF n rest with
          | some cs => some (c :: cs)
          | none => none
        | none => none := rfl
    rw [h1, hb, hev, ← hb, utf8DecodeChar1_enc]
    simp only []
    rw [ih n (by simp at hfuel ⊢; omega)]

/-- Decoding inverts encoding on whole streams. -/
theorem utf8Decode_encode (cs : List Char) : utf8Decode (utf8Encode cs) = some cs := by
  rw [utf8Decode]
  apply utf8DecodeF_enc
  have := utf8Encode_len cs
  omega

/-- Each base64 digit decodes back to its sextet value. -/
theorem b64CharVal_b64Char : ∀ n, n < 64 → b64CharVal (b64Char n) = some n := by decide

/-- Base64 digits are never the padding character. -/
theorem b64Char_ne_pad : ∀ n, n < 64 → b64Char n ≠ '=' := by decide

/-- Decoding inverts encoding on byte streams. -/
theorem b64decode_encode (bs : List Nat) (h : ∀ b ∈ bs, b < 256) :
    b64decode (b64encode bs) = some bs := by
  induction bs using b64encode.induct with
  | case1 => rfl
  | case2 a =>
    have ha : a < 256 := h a (by simp)
    have he : b64encode [a] = [b64Char (a / 4), b64Char (a % 4 * 16), '=', '='] := by
      simp [b64encode]
    rw [he, b64decode.eq_def]
    simp only []
    rw [b64CharVal_b64Char _ (by omega), b64CharVal_b64Char _ (by omega)]
    simp only [if_true]
    rw [if_pos (by exact ⟨trivial, trivial, by omega⟩)]
    have h1 : a / 4 * 4 + a % 4 * 16 / 16 = a := by omega
    rw [h1]
  | case3 a b =>
    have ha : a < 256 := h a (by simp)
    have hb : b < 256 := h b (by simp)
    have he : b64encode [a, b]
        = [b64Char (a / 4), b64Char (a % 4 * 16 + b / 16), b64Char (b % 16 * 4), '='] := by
      simp [b64encode]
    rw [he, b64decode.eq_def]
    simp only []
    rw [b64CharVal_b64Char _ (by omega), b64CharVal_b64Char _ (by omega)]
    simp only []
    rw [if_neg (b64Char_ne_pad _ (by omega)), b64CharVal_b64Char _ (by omega)]
    simp only [if_true]
    rw [if_pos (by exact ⟨trivial, by omega⟩)]
    have h1 : a / 4 * 4 + (a % 4 * 16 + b / 16) / 16 = a := by omega
    have h2 : (a % 4 * 16 + b / 16) % 16 * 16 + b % 16 * 4 / 4 = b := by omega
    rw [h1, h2]
  | case4 a b c rest ih =>
    have ha : a < 256 := h a (by simp)
    have hb : b < 256 := h b (by simp)
    have hc : c < 256 := h c (by simp)
    have he : b64encode (a :: b :: c :: rest)
        = b64Char (a / 4) :: b64Char (a % 4 * 16 + b / 16) :: b64Char (b % 16 * 4 + c / 64) ::
          b64Char (c % 64) :: b64encode rest := by
      rw [b64encode.eq_def]
    rw [he, b64decode.eq_def]
    simp only []
    rw [b64CharVal_b64Char _ (by omega), b64CharVal_b64Char _ (by omega)]
    simp only []
    rw [if_neg (b64Char_ne_pad _ (by omega)), b64CharVal_b64Char _ (by omega)]
    simp only []
    rw [if_neg (b64Char_ne_pad _ (by omega)), b64CharVal_b64Char _ (by omega)]
    simp only []
    rw [ih (fun x hx => h x (by simp [hx]))]
    simp only []
    have h1 : a / 4 * 4 + (a % 4 * 16 + b / 16) / 16 = a := by omega
    have h2 : (a % 4 * 16 + b / 16) % 16 * 16 + (b % 16 * 4 + c / 64) / 4 = b := by omega
    have h3 : (b % 16 * 4 + c / 64) % 4 * 64 + c % 64 = c := by omega
    rw [h1, h2, h3]

/-- Decoding the download payload recovers the exported CSV text. -/
theorem decode_payload_download (t : Table) :
    decode_payload (download_payload t) = some (to_csv t) := by
  rw [download_payload, decode_payload]
  rw [b64decode_encode _ (utf8Encode_lt _)]
  simp only []
  rw [utf8Decode_encode]

/-! ## Lemmas: the canonical date form parses back to the same date -/

/-- Digits render back to their values. -/
theorem digitVal_ofNat (k : Nat) (hk : k < 10) : digitVal (Char.ofNat (48 + k)) = some k := by
  interval_cases k <;> decide

/-- Dates parsed by dateParse are valid. -/
theorem dateParse_valid (s : String) (d : Date) (h : dateParse s = some d) :
    validDate d = true := by
  rw [dateParse] at h
  split at h
  · split at h
    · split at h
      · simp only [Option.some.injEq] at h
        rename_i hv
        rw [← h]
        exact hv
      · exact absurd h (by simp)
    · exact absurd h (by simp)
  · split at h
    · split at h
      · simp only [Option.some.injEq] at h
        rename_i hv
        rw [← h]
        exact hv
      · exact absurd h (by simp)
    · exact absurd h (by simp)
  · exact absurd h (by simp)

/-- Formatting a valid date and re-parsing yields the same date. -/
theorem dateParse_format (d : Date) (hv : validDate d = true) :
    dateParse (dateFormat d) = some d := by
  have hb : d.year ≤ 9999 ∧ 1 ≤ d.month ∧ d.month ≤ 12 ∧ 1 ≤ d.day ∧ d.day ≤ 31 := by
    rw [validDate] at hv
    simp only [Bool.and_eq_true, decide_eq_true_eq] at hv
    have hdm : daysInMonth d.year d.month ≤ 31 := by
      rw [daysInMonth]
      split
      · split <;> omega
      · split <;> omega
    omega
  have hdata : (dateFormat d).data
      = [Char.ofNat (48 + d.year / 1000 % 10), Char.ofNat (48 + d.year / 100 % 10),
         Char.ofNat (48 + d.year / 10 % 10), Char.ofNat (48 + d.year % 10), '-',
         Char.ofNat (48 + d.month / 10 % 10), Char.ofNat (48 + d.month % 10), '-',
         Char.ofNat (48 + d.day / 10 % 10), Char.ofNat (48 + d.day % 10)] := by
    rw [dateFormat, pad4, pad2, pad2]
    rfl
  rw [dateParse, hdata]
  simp only []
  rw [digitVal_ofNat _ (by omega), digitVal_ofNat _ (by omega), digitVal_ofNat _ (by omega),
    digitVal_ofNat _ (by omega), digitVal_ofNat _ (by omega), digitVal_ofNat _ (by omega),
    digitVal_ofNat _ (by omega), digitVal_ofNat _ (by omega)]
  simp only []
  have hy : d.year / 1000 % 10 * 1000 + d.year / 100 % 10 * 100 + d.year / 10 % 10 * 10
      + d.year % 10 = d.year := by
    omega
  have hm : d.month / 10 % 10 * 10 + d.month % 10 = d.month := by
    omega
  have hd : d.day / 10 % 10 * 10 + d.day % 10 = d.day := by
    omega
  rw [hy, hm, hd]
  have : (⟨d.year, d.month, d.day⟩ : Date) = d := rfl
  rw [this, if_pos hv]

/-! ## Lemmas: date normalization -/

/-- Writing back the value already stored leaves the list unchanged. -/
theorem set_getD_self (l : List String) (i : Nat) : l.set i (l.getD i "") = l := by
  induction l generalizing i with
  | nil => simp
  | cons x xs ih =>
    cases i with
    | zero => simp [List.getD]
    | succ n =>
      simp only [List.set_cons_succ, List.getD_cons_succ, List.cons.injEq, true_and]
      exact ih n

/-- The empty value is not a date. -/
theorem dateParse_empty : dateParse "" = none := rfl

/-- Successful row normalization decomposes into a parse and a write. -/
theorem normRow_sound (i : Nat) (r r' : List String) (h : normRow i r = some r') :
    ∃ d, dateParse (r.getD i "") = some d ∧ r' = r.set i (dateFormat d) := by
  rw [normRow] at h
  split at h
  · rename_i d hd
    simp only [Option.some.injEq] at h
    exact ⟨d, hd, h.symm⟩
  · exact absurd h (by simp)

/-- Successful row normalization only happens inside the row's width. -/
theorem normRow_lt (i : Nat) (r r' : List String) (h : normRow i r = some r') :
    i < r.length := by
  obtain ⟨d, hd, _⟩ := normRow_sound i r r' h
  by_contra hge
  have hlen : r.length ≤ i := Nat.le_of_not_lt hge
  have hempty : r.getD i "" = "" := by
    rw [List.getD, List.get?_eq_none.mpr hlen]
    rfl
  rw [hempty, dateParse_empty] at hd
  exact absurd hd (by simp)

/-- Row normalization is idempotent. -/
theorem normRow_idem (i : Nat) (r r' : List String) (h : normRow i r = some r') :
    normRow i r' = some r' := by
  obtain ⟨d, hd, rfl⟩ := normRow_sound i r r' h
  have hlt : i < r.length := normRow_lt i r _ h
  have hg : (r.set i (dateFormat d)).getD i "" = dateFormat d := by
    simp [List.getD, List.getElem?_set_self', hlt]
  rw [normRow, hg, dateParse_format d (dateParse_valid _ _ hd)]
  simp only [Option.some.injEq]
  exact List.set_set _ _ _ _

/-- Normalizing a row whose designated value is already canonical leaves
the row unchanged. -/
theorem normRow_canon (i : Nat) (r : List String) (d : Date) (hv : validDate d = true)
    (hval : r.getD i "" = dateFormat d) : normRow i r = some r := by
  rw [normRow, hval, dateParse_format d hv]
  simp only [Option.some.injEq]
  rw [← hval]
  exact set_getD_self r i

/-- Row-list normalization preserves the row count. -/
theorem normRows_length (i : Nat) (rows rows' : List (List String))
    (h : normRows i rows = some rows') : rows'.length = rows.length := by
  induction rows generalizing rows' with
  | nil =>
    simp only [normRows, Option.some.injEq] at h
    rw [← h]
  | cons r rs ih =>
    rw [normRows] at h
    split at h
    · rename_i r' rs' h1 h2
      simp only [Option.some.injEq] at h
      rw [← h]
      simp only [List.length_cons]
      rw [ih rs' h2]
    · exact absurd h (by simp)

/-- Row-list normalization is idempotent. -/
theorem normRows_idem (i : Nat) (rows rows' : List (List String))
    (h : normRows i rows = some rows') : normRows i rows' = some rows' := by
  induction rows generalizing rows' with
  | nil =>
    simp only [normRows, Option.some.injEq] at h
    rw [← h]
    rfl
  | cons r rs ih =>
    rw [normRows] at h
    split at h
    · rename_i r' rs' h1 h2
      simp only [Option.some.injEq] at h
      rw [← h, normRows, normRow_idem i r r' h1, ih rs' h2]
    · exact absurd h (by simp)

/-- Normalizing rows whose designated values are already canonical is the
identity. -/
theorem normRows_canon (i : Nat) (rows : List (List String))
    (h : ∀ r ∈ rows, ∃ d, validDate d = true ∧ r.getD i "" = dateFormat d) :
    normRows i rows = some rows := by
  induction rows with
  | nil => rfl
  | cons r rs ih =>
    obtain ⟨d, hv, hval⟩ := h r (by simp)
    rw [normRows, normRow_canon i r d hv hval, ih (fun x hx => h x (by simp [hx]))]

/-- Row-list normalization leaves all other columns unchanged. -/
theorem normRows_other (i : Nat) (rows rows' : List (List String))
    (h : normRows i rows = some rows') (k j : Nat) (hj : j ≠ i) :
    (rows'.getD k []).getD j "" = (rows.getD k []).getD j "" := by
  induction rows generalizing rows' k with
  | nil =>
    simp only [normRows, Option.some.injEq] at h
    rw [← h]
  | cons r rs ih =>
    rw [normRows] at h
    split at h
    · rename_i r' rs' h1 h2
      simp only [Option.some.injEq] at h
      rw [← h]
      cases k with
      | zero =>
        obtain ⟨d, _, rfl⟩ := normRow_sound i r r' h1
        simp only [List.getD_cons_zero]
        simp [List.getD, List.getElem?_set_ne (fun he => hj he.symm)]
      | succ n =>
        simp only [List.getD_cons_succ]
        exact ih rs' h2 n
    · exact absurd h (by simp)

/-! ## Lemmas: the slider's column maximum -/

/-- Lexicographic order is irreflexive. -/
theorem lexLt_irrefl (a : List Char) : lexLt a a = false := by
  induction a with
  | nil => rfl
  | cons c cs ih =>
    rw [lexLt]
    simp [ih]

/-- Lexicographic order is transitive. -/
theorem lexLt_trans (a b c : List Char) (h1 : lexLt a b = true) (h2 : lexLt b c = true) :
    lexLt a c = true := by
  induction a generalizing b c with
  | nil =>
    cases b with
    | nil => rw [lexLt] at h1; exact absurd h1 (by simp)
    | cons x xs =>
      cases c with
      | nil => rw [lexLt] at h2; exact absurd h2 (by simp)
      | cons y ys => rfl
  | cons p ps ih =>
    cases b with
    | nil => rw [lexLt] at h1; exact absurd h1 (by simp)
    | cons x xs =>
      cases c with
      | nil => rw [lexLt] at h2; exact absurd h2 (by simp)
      | cons y ys =>
        rw [lexLt] at h1 h2 ⊢
        by_cases hpx : p.toNat < x.toNat
        · by_cases hxy : x.toNat < y.toNat
          · rw [if_pos (by omega)]
          · rw [if_neg hxy] at h2
            by_cases hxy2 : x = y
            · rw [if_pos (by rw [← hxy2]; exact hpx)]
            · rw [if_neg hxy2] at h2
              exact absurd h2 (by simp)
        · rw [if_neg hpx] at h1
          by_cases hpx2 : p = x
          · subst hpx2
            rw [if_pos rfl] at h1
            by_cases hpy : p.toNat < y.toNat
            · rw [if_pos hpy]
            · rw [if_neg hpy] at h2 ⊢
              by_cases hpy2 : p = y
              · rw [if_pos hpy2] at h2 ⊢
                exact ih xs ys h1 h2
              · rw [if_neg hpy2] at h2
                exact absurd h2 (by simp)
          · rw [if_neg hpx2] at h1
            exact absurd h1 (by simp)

/-- The string comparison is reflexive. -/
theorem strLe_refl (a : String) : strLe a a = true := by
  rw [strLe, lexLt_irrefl]
  rfl

/-- A column maximum is a column value. -/
theorem listMax_mem (l : List String) (m : String) (h : listMax l = some m) : m ∈ l := by
  induction l generalizing m with
  | nil => exact absurd h (by simp [listMax])
  | cons x xs ih =>
    rw [listMax] at h
    split at h
    · rename_i m' hm'
      simp only [Option.some.injEq] at h
      rw [← h]
      by_cases hle : strLe x m' = true
      · rw [if_pos hle]
        exact List.mem_cons_of_mem x (ih m' hm')
      · rw [if_neg hle]
        exact List.mem_cons_self x xs
    · simp only [Option.some.injEq] at h
      rw [← h]
      exact List.mem_cons_self x xs

/-- A column maximum bounds every column value. -/
theorem listMax_ge (l : List String) (m : String) (h : listMax l = some m) :
    ∀ v ∈ l, strLe v m = true := by
  induction l generalizing m with
  | nil => simp
  | cons x xs ih =>
    rw [listMax] at h
    split at h
    · rename_i m' hm'
      simp only [Option.some.injEq] at h
      intro v hv
      rcases List.mem_cons.mp hv with hv1 | hv2
      · subst hv1
        by_cases hle : strLe v m' = true
        · rw [← h, if_pos hle]
          exact hle
        · rw [← h, if_neg hle]
          exact strLe_refl v
      · have hvm' := ih m' hm' v hv2
        by_cases hle : strLe x m' = true
        · rw [← h, if_pos hle]
          exact hvm'
        · rw [← h, if_neg hle]
          rw [strLe] at hvm' hle ⊢
          simp only [Bool.not_eq_true', Bool.not_eq_false] at hvm' hle
          simp only [Bool.not_eq_true']
          by_contra hxv
          simp only [Bool.not_eq_false] at hxv
          have := lexLt_trans m'.data x.data v.data hle hxv
          rw [hvm'] at this
          exact absurd this (by simp)
    · simp only [Option.some.injEq] at h
      intro v hv
      cases xs with
      | nil =>
        rcases List.mem_cons.mp hv with hv1 | hv2
        · rw [hv1, h]
          exact strLe_refl m
        · exact absurd hv2 (by simp)
      | cons y ys =>
        rename_i hnone
        rw [listMax] at hnone
        split at hnone <;> exact absurd hnone (by simp)

/-! ## Lemmas: shape of the download link -/

/-- Character stream of the download link, split at its data URI parts. -/
theorem download_link_data (t : Table) :
    (download_link t).data
      = "<a href=\"data:".data ++ ("file/csv;base64,".data
        ++ (download_payload t ++ "\" download=\"flights.csv\">Download CSV</a>".data)) := by
  rw [download_link]
  have hsplit : ("<a href=\"data:file/csv;base64," : String)
      = "<a href=\"data:" ++ "file/csv;base64," := by decide
  rw [hsplit]
  simp [String.data_append, List.append_assoc]

/-- Every list is a prefix of itself extended. -/
theorem isPrefixOf_append_self (l x : List Char) : l.isPrefixOf (l ++ x) = true := by
  induction l with
  | nil => simp [List.isPrefixOf]
  | cons c cs ih => simp [List.isPrefixOf, ih]

/-- Taking while a predicate holds stops exactly at the first failure. -/
theorem takeWhile_append_stop (p : Char → Bool) (l1 : List Char) (x : Char) (l2 : List Char)
    (h1 : ∀ c ∈ l1, p c = true) (h2 : p x = false) :
    (l1 ++ x :: l2).takeWhile p = l1 := by
  induction l1 with
  | nil => simp [List.takeWhile_cons, h2]
  | cons c cs ih =>
    simp [List.takeWhile_cons, h1 c (by simp), ih (fun d hd => h1 d (by simp [hd]))]

/-- The media type of every produced download link is file/csv. -/
theorem extractMime_download (t : Table) :
    extractMime (download_link t) = some "file/csv" := by
  rw [extractMime, download_link_data]
  rw [if_pos (isPrefixOf_append_self _ _)]
  rw [List.drop_left]
  have hx : "file/csv;base64,".data
        ++ (download_payload t ++ "\" download=\"flights.csv\">Download CSV</a>".data)
      = "file/csv".data ++ ';' :: ("base64,".data
        ++ (download_payload t ++ "\" download=\"flights.csv\">Download CSV</a>".data)) := rfl
  rw [hx, takeWhile_append_stop _ _ _ _ (by decide) (by decide)]

/-! ## Claim theorems -/

/-- C1: for every table loaded from valid CSV content, exporting it with
the CSV exporter and re-loading the decoded payload reproduces an
identical table: same row set, same column values, same column order. -/
theorem C1_csv_roundtrip (content : String) (t : Table)
    (h : parseTable content = .ok t) :
    ∃ csvText, decode_payload (download_payload t) = some csvText ∧
      parseTable csvText = .ok t := by
  obtain ⟨hh, hw⟩ := parseTable_wf content t h
  exact ⟨to_csv t, decode_payload_download t, parseTable_to_csv t hh hw⟩

/-- C1 witness: the round trip at a concrete two-column table. -/
theorem C1_witness :
    ∃ csvText, decode_payload (download_payload ⟨["a", "b"], [["1", "2"]]⟩) = some csvText ∧
      parseTable csvText = .ok ⟨["a", "b"], [["1", "2"]]⟩ :=
  C1_csv_roundtrip "a,b\n1,2\n" ⟨["a", "b"], [["1", "2"]]⟩ rfl

/-- C2: date normalization is idempotent — normalizing a normalized table
again returns it unchanged, and a column of canonical YYYY-MM-DD values
normalizes to a byte-identical table. -/
theorem C2_normalize_idempotent (t : Table) (c : String) :
    (∀ t', normalize_date t c = .ok t' → normalize_date t' c = .ok t') ∧
    (∀ i, colIndex t c = some i →
      (∀ r ∈ t.rows, ∃ d, validDate d = true ∧ r.getD i "" = dateFormat d) →
      normalize_date t c = .ok t) := by
  constructor
  · intro t' h
    rw [normalize_date] at h
    split at h
    · exact absurd h (by simp)
    · rename_i i hci
      split at h
      · rename_i rs hrs
        simp only [Except.ok.injEq] at h
        subst h
        have hci' : colIndex ⟨t.header, rs⟩ c = some i := hci
        rw [normalize_date, hci']
        simp only []
        rw [normRows_idem i t.rows rs hrs]
      · exact absurd h (by simp)
  · intro i hci hcanon
    rw [normalize_date, hci]
    simp only []
    rw [normRows_canon i t.rows hcanon]

/-- C2 witness: normalizing the already-normalized result of a
slash-format column is the identity. -/
theorem C2_witness :
    normalize_date ⟨["date"], [["2020-01-01"]]⟩ "date" = .ok ⟨["date"], [["2020-01-01"]]⟩ :=
  (C2_normalize_idempotent ⟨["date"], [["01/Jan/2020"]]⟩ "date").1
    ⟨["date"], [["2020-01-01"]]⟩ rfl

/-- C3: every row the date filter returns has the column equal to the
target, the returned row count equals the matching count in the source,
and an absent target yields a zero-row table with the same columns. -/
theorem C3_filter_spec (t : Table) (c d : String) (i : Nat) (res : Table)
    (hc : colIndex t c = some i) (h : filter_by_date t c d = .ok res) :
    (∀ r ∈ res.rows, r.getD i "" = d) ∧
    res.rows.length = t.rows.countP (fun r => r.getD i "" = d) ∧
    ((∀ r ∈ t.rows, r.getD i "" ≠ d) → res.rows = [] ∧ res.header = t.header) := by
  rw [filter_by_date, hc] at h
  simp only [Except.ok.injEq] at h
  subst h
  refine ⟨?_, ?_, ?_⟩
  · intro r hr
    have := (List.mem_filter.mp hr).2
    simpa using this
  · exact (List.countP_eq_length_filter _ _).symm
  · intro hall
    refine ⟨List.filter_eq_nil_iff.mpr ?_, rfl⟩
    intro r hr
    simpa using hall r hr

/-- C3 witness: filtering a concrete two-row table on a present date. -/
theorem C3_witness :
    (∀ r ∈ (Table.mk ["date"] [["2020-01-01"]]).rows, r.getD 0 "" = "2020-01-01") ∧
    (Table.mk ["date"] [["2020-01-01"]]).rows.length
      = (Table.mk ["date"] [["2020-01-01"], ["2020-01-02"]]).rows.countP
          (fun r => r.getD 0 "" = "2020-01-01") ∧
    ((∀ r ∈ (Table.mk ["date"] [["2020-01-01"], ["2020-01-02"]]).rows,
        r.getD 0 "" ≠ "2020-01-01") →
      (Table.mk ["date"] [["2020-01-01"]]).rows = [] ∧
      (Table.mk ["date"] [["2020-01-01"]]).header
        = (Table.mk ["date"] [["2020-01-01"], ["2020-01-02"]]).header) :=
  C3_filter_spec ⟨["date"], [["2020-01-01"], ["2020-01-02"]]⟩ "date" "2020-01-01" 0
    ⟨["date"], [["2020-01-01"]]⟩ rfl rfl

/-- C4: the date filter never increases the row count and the surviving
rows form a subsequence of the source rows, in source order. -/
theorem C4_filter_sublist (t : Table) (c d : String) (res : Table)
    (h : filter_by_date t c d = .ok res) :
    List.Sublist res.rows t.rows ∧ res.rows.length ≤ t.rows.length ∧
    res.header = t.header := by
  rw [filter_by_date] at h
  split at h
  · exact absurd h (by simp)
  · simp only [Except.ok.injEq] at h
    subst h
    exact ⟨t.rows.filter_sublist, t.rows.filter_sublist.length_le, rfl⟩

/-- C4 witness: the filtered concrete table is a subsequence of its
source. -/
theorem C4_witness :
    List.Sublist (Table.mk ["date"] [["2020-01-01"]]).rows
      (Table.mk ["date"] [["2020-01-01"], ["2020-01-02"]]).rows ∧
    (Table.mk ["date"] [["2020-01-01"]]).rows.length
      ≤ (Table.mk ["date"] [["2020-01-01"], ["2020-01-02"]]).rows.length ∧
    (Table.mk ["date"] [["2020-01-01"]]).header
      = (Table.mk ["date"] [["2020-01-01"], ["2020-01-02"]]).header :=
  C4_filter_sublist ⟨["date"], [["2020-01-01"], ["2020-01-02"]]⟩ "date" "2020-01-01"
    ⟨["date"], [["2020-01-01"]]⟩ rfl

/-- C5: date normalization of a designated column preserves the header,
the row count, and every other column's values. -/
theorem C5_normalize_frame (t : Table) (c : String) (i : Nat) (t' : Table)
    (hci : colIndex t c = some i) (h : normalize_date t c = .ok t') :
    t'.header = t.header ∧ t'.rows.length = t.rows.length ∧
    ∀ k j, j ≠ i → (t'.rows.getD k []).getD j "" = (t.rows.getD k []).getD j "" := by
  rw [normalize_date, hci] at h
  simp only [] at h
  split at h
  · rename_i rs hrs
    simp only [Except.ok.injEq] at h
    rw [← h]
    exact ⟨rfl, normRows_length i t.rows rs hrs,
      fun k j hj => normRows_other i t.rows rs hrs k j hj⟩
  · exact absurd h (by simp)

/-- C5 witness: the frame condition at a concrete two-column table. -/
theorem C5_witness :
    (Table.mk ["date", "v"] [["2020-01-01", "k"]]).header
      = (Table.mk ["date", "v"] [["01/Jan/2020", "k"]]).header ∧
    (Table.mk ["date", "v"] [["2020-01-01", "k"]]).rows.length
      = (Table.mk ["date", "v"] [["01/Jan/2020", "k"]]).rows.length ∧
    ∀ k j, j ≠ 0 →
      ((Table.mk ["date", "v"] [["2020-01-01", "k"]]).rows.getD k []).getD j ""
        = ((Table.mk ["date", "v"] [["01/Jan/2020", "k"]]).rows.getD k []).getD j "" :=
  C5_normalize_frame ⟨["date", "v"], [["01/Jan/2020", "k"]]⟩ "date" 0
    ⟨["date", "v"], [["2020-01-01", "k"]]⟩ rfl rfl

/-- C6: loading a nonexistent path yields the not-found error, and a
well-formed existing file loads as the header's columns with the
subsequent records as rows. -/
theorem C6_load_spec (fs : String → Option String) (path : String) :
    (fs path = none → load_data fs path = .error .notFound) ∧
    (∀ content header rows, fs path = some content →
      parseRecords content.data = some (header :: rows) →
      (∀ r ∈ rows, r.length = header.length) →
      load_data fs path = .ok ⟨header, rows⟩) := by
  constructor
  · intro h
    rw [load_data, h]
  · intro content header rows hc hp hw
    rw [load_data, hc]
    show parseTable content = Except.ok ⟨header, rows⟩
    rw [parseTable.eq_def, hp]
    simp only []
    rw [if_pos (List.all_eq_true.mpr fun r hr => by simp [hw r hr])]

/-- C6 witness: a missing path errors, a present well-formed path loads. -/
theorem C6_witness :
    load_data (fun p => if p = "f.csv" then some "a,b\n1,2\n" else none) "missing.csv"
      = .error .notFound ∧
    load_data (fun p => if p = "f.csv" then some "a,b\n1,2\n" else none) "f.csv"
      = .ok ⟨["a", "b"], [["1", "2"]]⟩ :=
  ⟨(C6_load_spec (fun p => if p = "f.csv" then some "a,b\n1,2\n" else none) "missing.csv").1 rfl,
   (C6_load_spec (fun p => if p = "f.csv" then some "a,b\n1,2\n" else none) "f.csv").2
     "a,b\n1,2\n" ["a", "b"] [["1", "2"]] rfl rfl (by decide)⟩

/-- C7 counterexample: the slider accepts 2020-01-15 on a dataset whose
every date is strictly later, so its lower bound is not the earliest
available date of the dataset — it is the fixed literal 2020-01-01. -/
theorem C7_counterexample :
    slider_allows ⟨["firstseen"], [["2020-02-01"]]⟩ "2020-01-15" = true ∧
    colValues ⟨["firstseen"], [["2020-02-01"]]⟩ "firstseen" = some ["2020-02-01"] ∧
    ∀ v ∈ ["2020-02-01"], strLe v "2020-01-15" = false := by
  decide

/-- C7 (amended): the slider control enforces that the selected date lies
between the fixed date 2020-01-01 (not the dataset minimum) and the
latest date present in the firstseen column. -/
theorem C7_slider_range (t : Table) (d : String) (vs : List String)
    (hv : colValues t "firstseen" = some vs)
    (h : slider_allows t d = true) :
    strLe slider_min d = true ∧
    ∃ m ∈ vs, (∀ v ∈ vs, strLe v m = true) ∧ strLe d m = true := by
  rw [slider_allows] at h
  split at h
  · rename_i m hm
    rw [slider_max, hv] at hm
    simp only [] at hm
    rw [Bool.and_eq_true] at h
    exact ⟨h.1, m, listMax_mem vs m hm, listMax_ge vs m hm, h.2⟩
  · exact absurd h (by simp)

/-- C7 witness: the amended bounds at a concrete two-row dataset. -/
theorem C7_witness :
    strLe slider_min "2020-02-01" = true ∧
    ∃ m ∈ ["2020-01-05", "2020-03-28"],
      (∀ v ∈ ["2020-01-05", "2020-03-28"], strLe v m = true) ∧
      strLe "2020-02-01" m = true :=
  C7_slider_range ⟨["firstseen"], [["2020-01-05"], ["2020-03-28"]]⟩ "2020-02-01"
    ["2020-01-05", "2020-03-28"] rfl rfl

/-- C8 counterexample: the produced data URI's media type segment is
file/csv, not text/csv, already at a concrete one-cell table. -/
theorem C8_counterexample :
    extractMime (download_link ⟨["a"], [["x"]]⟩) ≠ some "text/csv" ∧
    extractMime (download_link ⟨["a"], [["x"]]⟩) = some "file/csv" := by
  constructor
  · rw [extractMime_download]
    decide
  · exact extractMime_download ⟨["a"], [["x"]]⟩

/-- C8 (amended): the exporter produces a base64 data URI whose media
type segment is the literal file/csv, carrying the suggested filename
flights.csv, and its payload decodes to the CSV serialization; the
exporter is a pure function of the table and writes nothing. -/
theorem C8_download_link_shape (t : Table) :
    extractMime (download_link t) = some "file/csv" ∧
    (∃ x y, (download_link t).data
      = x ++ (" download=\"flights.csv\"" : String).data ++ y) ∧
    decode_payload (download_payload t) = some (to_csv t) := by
  refine ⟨extractMime_download t, ?_, decode_payload_download t⟩
  refine ⟨"<a href=\"data:".data ++ ("file/csv;base64,".data ++ download_payload t
    ++ "\"".data), ">Download CSV</a>".data, ?_⟩
  rw [download_link_data]
  have hB : ("\" download=\"flights.csv\">Download CSV</a>" : String).data
      = "\"".data ++ ((" download=\"flights.csv\"" : String).data
        ++ ">Download CSV</a>".data) := rfl
  rw [hB]
  simp [List.append_assoc]

/-- C9: a field containing a comma (or quote, or newline) is emitted
quoted, and a conforming CSV field parser reads the quoted form back as
the original unquoted value. -/
theorem C9_csv_quoting (s : String)
    (hs : ',' ∈ s.data ∨ '"' ∈ s.data ∨ '\n' ∈ s.data) :
    (escField s).head? = some '"' ∧ parseField (escField s) = some (s.data, []) := by
  have hq : needsQuote s = true := by
    rw [needsQuote]
    rcases hs with h | h | h
    · exact List.any_eq_true.mpr ⟨',', h, by decide⟩
    · exact List.any_eq_true.mpr ⟨'"', h, by decide⟩
    · exact List.any_eq_true.mpr ⟨'\n', h, by decide⟩
  constructor
  · rw [escField, if_pos hq]
    rfl
  · have h := parseField_esc s [] (Or.inl rfl)
    simpa using h

/-- C9 witness: the comma-bearing field a,b round trips through quoting. -/
theorem C9_witness :
    (escField "a,b").head? = some '"' ∧ parseField (escField "a,b") = some ("a,b".data, []) :=
  C9_csv_quoting "a,b" (by decide)

/-- C10: every produced download link carries the fixed suggested
filename flights.csv, whichever table is exported, and the payload
re-parses with exactly the table's own columns — no row index column. -/
theorem C10_download_fixed_filename (t : Table) (hh : t.header ≠ [])
    (hw : ∀ r ∈ t.rows, r.length = t.header.length) :
    (∃ x y, (download_link t).data
      = x ++ (" download=\"flights.csv\"" : String).data ++ y) ∧
    ∃ csvText, decode_payload (download_payload t) = some csvText ∧
      parseTable csvText = .ok ⟨t.header, t.rows⟩ := by
  constructor
  · refine ⟨"<a href=\"data:".data ++ ("file/csv;base64,".data ++ download_payload t
      ++ "\"".data), ">Download CSV</a>".data, ?_⟩
    rw [download_link_data]
    have hB : ("\" download=\"flights.csv\">Download CSV</a>" : String).data
        = "\"".data ++ ((" download=\"flights.csv\"" : String).data
          ++ ">Download CSV</a>".data) := rfl
    rw [hB]
    simp [List.append_assoc]
  · exact ⟨to_csv t, decode_payload_download t, parseTable_to_csv t hh hw⟩

/-- C10 witness: the fixed filename and index-free payload at a concrete
accident-style table. -/
theorem C10_witness :
    (∃ x y, (download_link ⟨["lat", "lng"], [["52.2", "-1.4"]]⟩).data
      = x ++ (" download=\"flights.csv\"" : String).data ++ y) ∧
    ∃ csvText,
      decode_payload (download_payload ⟨["lat", "lng"], [["52.2", "-1.4"]]⟩) = some csvText ∧
      parseTable csvText = .ok ⟨["lat", "lng"], [["52.2", "-1.4"]]⟩ :=
  C10_download_fixed_filename ⟨["lat", "lng"], [["52.2", "-1.4"]]⟩ (by decide) (by decide)
